import Mathlib

/-!
Shallow embedding of `src/main.py` (Gemini text summariser):
the markdown-to-HTML converter `convert_markdown_to_html` and the
PDF renderer `save_summary_as_pdf`, with the wall clock and the file
system made explicit parameters.
-/

namespace Summariser

/-! ### Python regex `re.sub` with lazy dot-star between fixed delimiters

Both substitutions in `convert_markdown_to_html` have the shape
`d (.*?) d` for a delimiter `d` made of asterisks.  Python semantics:
scan left to right; at each position try to match the opening delimiter
followed by the shortest run of non-newline characters followed by the
closing delimiter; on a match emit the replacement (opening tag, captured
content, closing tag) and resume after the match; otherwise emit the
character and move one position right. -/

/-- Lazy search for the closing delimiter `d`: returns the shortest
prefix of non-newline characters (`.` does not match `\n` in Python)
followed by `d`, together with the remainder after `d`. -/
def findClose (d : List Char) : List Char → Option (List Char × List Char)
  | [] => if d.isPrefixOf ([] : List Char) then some ([], []) else none
  | c :: cs =>
    if d.isPrefixOf (c :: cs) then some ([], (c :: cs).drop d.length)
    else if c = '\n' then none
    else (findClose d cs).map (fun p => (c :: p.1, p.2))

/-- One `re.sub` pass for pattern `d(.*?)d` with replacement
`op ++ content ++ cl`, with explicit fuel (the top-level call passes the
input length, which suffices because every step consumes at least one
character). -/
def subTagF (d op cl : List Char) : Nat → List Char → List Char
  | 0, s => s
  | _ + 1, [] => []
  | fuel + 1, c :: cs =>
    if d.isPrefixOf (c :: cs) then
      match findClose d ((c :: cs).drop d.length) with
      | some (con, rest) => op ++ con ++ cl ++ subTagF d op cl fuel rest
      | none => c :: subTagF d op cl fuel cs
    else c :: subTagF d op cl fuel cs

/-- Python `str.replace` for a single-character pattern (the two
`replace` calls in the converter both have one-character patterns). -/
def replChar (c : Char) (r : List Char) : List Char → List Char
  | [] => []
  | x :: xs => if x = c then r ++ replChar c r xs else x :: replChar c r xs

def dBold : List Char := ['*', '*']

def dStar : List Char := ['*']

/-- Rule 1: `re.sub(r"\*\*(.*?)\*\*", r"<b>\1</b>", text)`. -/
def rule1 (s : List Char) : List Char :=
  subTagF dBold "<b>".data "</b>".data s.length s

/-- Rule 2: `re.sub(r"\*(.*?)\*", r"<i>\1</i>", text)`. -/
def rule2 (s : List Char) : List Char :=
  subTagF dStar "<i>".data "</i>".data s.length s

/-- Rule 3: `text.replace("\n", "<br/>")`. -/
def rule3 (s : List Char) : List Char := replChar '\n' "<br/>".data s

/-- Rule 4: `text.replace("•", "&bull;")`. -/
def rule4 (s : List Char) : List Char := replChar '•' "&bull;".data s

def convertL (s : List Char) : List Char := rule4 (rule3 (rule2 (rule1 s)))

/-- Function `convert_markdown_to_html` from `src/main.py`. -/
def convert_markdown_to_html (text : String) : String :=
  String.mk (convertL text.data)

/-! ### Python `str.split()` (no separator): split on runs of whitespace -/

/-- The characters Python `str.split()` treats as whitespace. -/
def isPySpace (c : Char) : Bool :=
  c = ' ' || c = '\t' || c = '\n' || c = '\r' || c = '\x0b' || c = '\x0c' ||
  c = '\x1c' || c = '\x1d' || c = '\x1e' || c = '\x1f' || c = '\x85' || c = '\xa0' ||
  c = '\u1680' || (0x2000 ≤ c.toNat && c.toNat ≤ 0x200a) ||
  c = '\u2028' || c = '\u2029' || c = '\u202F' || c = '\u205F' || c = '\u3000'

def pySplitGo : List Char → List Char → List (List Char)
  | acc, [] => if acc.isEmpty then [] else [acc.reverse]
  | acc, c :: cs =>
    if isPySpace c then
      if acc.isEmpty then pySplitGo [] cs else acc.reverse :: pySplitGo [] cs
    else pySplitGo (c :: acc) cs

/-- Python `text.split()`: maximal runs of non-whitespace characters. -/
def pySplit (s : List Char) : List (List Char) := pySplitGo [] s

/-! ### `datetime.now().strftime(...)` -/

/-- A wall-clock instant, to second granularity, as `datetime.now()`
observes it. -/
structure Timestamp where
  year : Nat
  month : Nat
  day : Nat
  hour : Nat
  minute : Nat
  second : Nat
deriving DecidableEq, Repr

def pad2 (n : Nat) : String := if n < 10 then "0" ++ toString n else toString n

def pad4 (n : Nat) : String :=
  if n < 10 then "000" ++ toString n
  else if n < 100 then "00" ++ toString n
  else if n < 1000 then "0" ++ toString n
  else toString n

/-- Python strftime with format %Y%m%d_%H%M%S. -/
def fileTimestamp (t : Timestamp) : String :=
  pad4 t.year ++ pad2 t.month ++ pad2 t.day ++ "_" ++
  pad2 t.hour ++ pad2 t.minute ++ pad2 t.second

def monthName : Nat → String
  | 1 => "January" | 2 => "February" | 3 => "March" | 4 => "April"
  | 5 => "May" | 6 => "June" | 7 => "July" | 8 => "August"
  | 9 => "September" | 10 => "October" | 11 => "November" | 12 => "December"
  | _ => ""

def hour12 (h : Nat) : Nat := if h % 12 = 0 then 12 else h % 12

def meridiem (h : Nat) : String := if h < 12 then "AM" else "PM"

/-- Python strftime with format string percent-B %d, %Y - %I:%M %p (the
footer timestamp: note it has minute, not second, granularity). -/
def footerTimestamp (t : Timestamp) : String :=
  monthName t.month ++ " " ++ pad2 t.day ++ ", " ++ pad4 t.year ++ " - " ++
  pad2 (hour12 t.hour) ++ ":" ++ pad2 t.minute ++ " " ++ meridiem t.hour

/-! ### The document model for `save_summary_as_pdf`

ReportLab flowables become a small inductive type; style objects keep the
numeric and colour constants of the source.  Spacer heights are recorded
in hundredths of an inch (`0.35 * inch` ↦ `35`). -/

structure ParagraphStyle where
  styleName : String
  fontSize : Nat
  leading : Nat
  alignment : Nat
  textColor : String
  spaceAfter : Nat
deriving DecidableEq, Repr

def title_style : ParagraphStyle := ⟨"Title", 22, 26, 1, "#1E3A8A", 12⟩

def subtitle_style : ParagraphStyle := ⟨"Subtitle", 13, 18, 1, "#334155", 18⟩

def body_style : ParagraphStyle := ⟨"Body", 12, 18, 0, "#0F172A", 10⟩

def footer_style : ParagraphStyle := ⟨"Footer", 9, 12, 1, "#6B7280", 0⟩

inductive Block where
  | table (data : List (List String)) (styleTag : String)
  | spacer (width heightCentiInch : Nat)
  | paragraph (text : String) (style : ParagraphStyle)
  | card (text : String) (style : ParagraphStyle)
deriving DecidableEq, Repr

/-- The generated filename built on line 72: the fixed prefix AI_Summary_,
then the %Y%m%d_%H%M%S timestamp, then the fixed .pdf extension. -/
def mkFilename (t : Timestamp) : String :=
  "AI_Summary_" ++ fileTimestamp t ++ ".pdf"

/-- The `footer_text` f-string of `save_summary_as_pdf` (line 149), given
the second clock reading and the word count `len(summary_text.split())`. -/
def footer_text (t : Timestamp) (wordCount : Nat) : String :=
  "<b>Generated on:</b> " ++ footerTimestamp t ++ "  |  <b>Word Count:</b> " ++
  toString wordCount ++
  "<br/><font color=\x27#9CA3AF\x27>Made with ❤️ using Streamlit & Gemini</font>"

/-- The `content` list built by `save_summary_as_pdf` (lines 110–154):
header bar, spacer, title, subtitle, card with the converted markup,
spacer, footer.  Only the footer depends on the clock (second reading);
the file timestamp appears only in the filename. -/
def docContent (summary_text : String) (tFooter : Timestamp) : List Block :=
  [Block.table [["🧠 AI Text Summarizer", "Gemini 2.5 Pro | AI Generated Summary"]] "header",
   Block.spacer 1 35,
   Block.paragraph "✨ Executive Summary" title_style,
   Block.paragraph "Clean • Concise • Insightful" subtitle_style,
   Block.card (convert_markdown_to_html summary_text) body_style,
   Block.spacer 1 40,
   Block.paragraph (footer_text tFooter (pySplit summary_text.data).length) footer_style]

/-- Function `save_summary_as_pdf` from `src/main.py`, with the optional-import
guard (`A4 is None`), the wall clock and the file system made explicit:
`clock n` is the value of the n-th `datetime.now()` call (n = 0 on line
72 for the filename, n = 1 on line 150 for the footer), and the file
system is a list of named documents to which `doc.build` prepends the
finished document.  When ReportLab is unavailable the function raises
before touching the file system. -/
def save_summary_as_pdf (a4Available : Bool) (clock : Nat → Timestamp)
    (summary_text : String) (fs : List (String × List Block)) :
    Except String String × List (String × List Block) :=
  if a4Available then
    let filename := mkFilename (clock 0)
    (Except.ok filename, (filename, docContent summary_text (clock 1)) :: fs)
  else
    (Except.error "ReportLab is not installed. Install dependencies to export PDF.", fs)

/-! ### Substring search (for the containment claims) -/

deriving instance DecidableEq for Except

def hasSub (p : List Char) : List Char → Bool
  | [] => p.isEmpty
  | c :: cs => p.isPrefixOf (c :: cs) || hasSub p cs

/-- Characters the converter never rewrites: everything except the
asterisk, the newline and the bullet glyph. -/
def keepC (c : Char) : Bool := !(c == '*' || c == '\n' || c == '•')

end Summariser


namespace Summariser

/-! ### Basic lemmas about the embedded string rewriting -/

theorem subTagF_nil (d op cl : List Char) (f : Nat) : subTagF d op cl f [] = [] := by
  cases f <;> rfl

theorem isPrefixOf_eq_append {d s : List Char} (h : d.isPrefixOf s = true) :
    s = d ++ s.drop d.length := by
  induction d generalizing s with
  | nil => simp
  | cons a d' ih =>
    cases s with
    | nil => simp [List.isPrefixOf] at h
    | cons b s' =>
      simp only [List.isPrefixOf, Bool.and_eq_true, beq_iff_eq] at h
      obtain ⟨rfl, h2⟩ := h
      simpa using ih h2

theorem findClose_eq_append {d : List Char} :
    ∀ {s con rest : List Char}, findClose d s = some (con, rest) → s = con ++ d ++ rest := by
  intro s
  induction s with
  | nil =>
    intro con rest h
    simp only [findClose] at h
    split at h
    · rename_i hp
      have hd : d = [] := by
        cases d with
        | nil => rfl
        | cons a d' => simp [List.isPrefixOf] at hp
      simp only [Option.some.injEq, Prod.mk.injEq] at h
      obtain ⟨h1, h2⟩ := h
      subst h1; subst h2; simp [hd]
    · exact absurd h (by simp)
  | cons c cs ih =>
    intro con rest h
    simp only [findClose] at h
    split at h
    · rename_i hp
      simp only [Option.some.injEq, Prod.mk.injEq] at h
      obtain ⟨h1, h2⟩ := h
      subst h1; subst h2
      simpa using isPrefixOf_eq_append hp
    · split at h
      · exact absurd h (by simp)
      · rw [Option.map_eq_some'] at h
        obtain ⟨⟨con', rest'⟩, hfc, heq⟩ := h
        simp only [Prod.mk.injEq] at heq
        obtain ⟨h1, h2⟩ := heq
        subst h1; subst h2
        simpa using ih hfc

theorem findClose_rest_length {d : List Char} {s con rest : List Char}
    (h : findClose d s = some (con, rest)) : rest.length ≤ s.length := by
  have h2 := findClose_eq_append h
  rw [h2]
  simp [List.length_append]
  omega

end Summariser

namespace Summariser

theorem isPrefixOf_append_self (l r : List Char) : l.isPrefixOf (l ++ r) = true := by
  induction l with
  | nil => simp [List.isPrefixOf]
  | cons a as ih => simp [List.isPrefixOf, ih]

theorem replChar_of_not_mem {c : Char} {r : List Char} :
    ∀ {s : List Char}, c ∉ s → replChar c r s = s := by
  intro s
  induction s with
  | nil => intro _; rfl
  | cons x xs ih =>
    intro h
    simp only [List.mem_cons, not_or] at h
    have hx : ¬ x = c := fun hh => h.1 hh.symm
    simp [replChar, hx, ih h.2]

theorem count_replChar_of_ne {a c : Char} {r : List Char} (ha : a ≠ c) (har : a ∉ r) :
    ∀ s : List Char, (replChar c r s).count a = s.count a := by
  intro s
  induction s with
  | nil => rfl
  | cons x xs ih =>
    by_cases hx : x = c
    · subst hx
      simp [replChar, List.count_append, List.count_cons, ih,
            List.count_eq_zero.mpr har, ha]
    · simp [replChar, hx, List.count_cons, ih]

theorem not_mem_replChar {a c : Char} {r : List Char} :
    ∀ {s : List Char}, a ∉ s → a ∉ r → a ∉ replChar c r s := by
  intro s
  induction s with
  | nil => intro _ _; simp [replChar]
  | cons x xs ih =>
    intro has har
    simp only [List.mem_cons, not_or] at has
    by_cases hx : x = c
    · have hstep : replChar c r (x :: xs) = r ++ replChar c r xs := by
        simp [replChar, hx]
      rw [hstep]
      simp only [List.mem_append, not_or]
      exact ⟨har, ih has.2 har⟩
    · have hstep : replChar c r (x :: xs) = x :: replChar c r xs := by
        simp [replChar, hx]
      rw [hstep]
      simp only [List.mem_cons, not_or]
      exact ⟨has.1, ih has.2 har⟩

theorem not_mem_replChar_self {c : Char} {r : List Char} (har : c ∉ r) :
    ∀ s : List Char, c ∉ replChar c r s := by
  intro s
  induction s with
  | nil => simp [replChar]
  | cons x xs ih =>
    by_cases hx : x = c
    · have hstep : replChar c r (x :: xs) = r ++ replChar c r xs := by
        simp [replChar, hx]
      rw [hstep]
      simp only [List.mem_append, not_or]
      exact ⟨har, ih⟩
    · have hstep : replChar c r (x :: xs) = x :: replChar c r xs := by
        simp [replChar, hx]
      rw [hstep]
      simp only [List.mem_cons, not_or]
      exact ⟨fun hh => hx hh.symm, ih⟩

theorem count_subTagF_eq {a : Char} {d op cl : List Char}
    (hd : a ∉ d) (hop : a ∉ op) (hcl : a ∉ cl) :
    ∀ (f : Nat) (s : List Char), (subTagF d op cl f s).count a = s.count a := by
  intro f
  induction f with
  | zero => intro s; rfl
  | succ f ih =>
    intro s
    cases s with
    | nil => rfl
    | cons c cs =>
      simp only [subTagF]
      split
      · rename_i hp
        split
        · rename_i con rest hfc
          have hs1 := isPrefixOf_eq_append hp
          have hs2 := findClose_eq_append hfc
          rw [hs1, hs2]
          simp [List.count_append, ih, List.count_eq_zero.mpr hd,
                List.count_eq_zero.mpr hop, List.count_eq_zero.mpr hcl]
        · simp [List.count_cons, ih]
      · simp [List.count_cons, ih]

theorem count_subTagF_le {a : Char} {d op cl : List Char}
    (hop : a ∉ op) (hcl : a ∉ cl) :
    ∀ (f : Nat) (s : List Char), (subTagF d op cl f s).count a ≤ s.count a := by
  intro f
  induction f with
  | zero => intro s; exact Nat.le_refl _
  | succ f ih =>
    intro s
    cases s with
    | nil => exact Nat.le_refl _
    | cons c cs =>
      simp only [subTagF]
      split
      · rename_i hp
        split
        · rename_i con rest hfc
          have hs1 := isPrefixOf_eq_append hp
          have hs2 := findClose_eq_append hfc
          rw [hs1, hs2]
          have hih := ih rest
          simp only [List.count_append, List.count_eq_zero.mpr hop,
                     List.count_eq_zero.mpr hcl]
          omega
        · have hih := ih cs
          simp only [List.count_cons]
          omega
      · have hih := ih cs
        simp only [List.count_cons]
        omega

theorem subTagF_of_head_not_mem {a : Char} {d₀ op cl : List Char} :
    ∀ (f : Nat) {s : List Char}, a ∉ s → subTagF (a :: d₀) op cl f s = s := by
  intro f
  induction f with
  | zero => intro s _; rfl
  | succ f ih =>
    intro s hs
    cases s with
    | nil => rfl
    | cons c cs =>
      simp only [List.mem_cons, not_or] at hs
      have hac : (a == c) = false := beq_eq_false_iff_ne.mpr hs.1
      simp only [subTagF, List.isPrefixOf, hac, Bool.false_and]
      simp [ih hs.2]

theorem findClose_none_of_not_mem {a : Char} {d₀ : List Char} :
    ∀ {s : List Char}, a ∉ s → findClose (a :: d₀) s = none := by
  intro s
  induction s with
  | nil => intro _; simp [findClose, List.isPrefixOf]
  | cons c cs ih =>
    intro hs
    simp only [List.mem_cons, not_or] at hs
    have hac : (a == c) = false := beq_eq_false_iff_ne.mpr hs.1
    have hp : ¬ ((a :: d₀).isPrefixOf (c :: cs) = true) := by
      simp [List.isPrefixOf, hac]
    by_cases hn : c = '\n'
    · simp only [findClose]
      rw [if_neg hp, if_pos hn]
    · simp only [findClose]
      rw [if_neg hp, if_neg hn, ih hs.2]
      rfl

theorem not_mem_of_findClose_single_none {a : Char} :
    ∀ {s : List Char}, '\n' ∉ s → findClose [a] s = none → a ∉ s := by
  intro s
  induction s with
  | nil => intro _ _; simp
  | cons c cs ih =>
    intro hnl h
    simp only [List.mem_cons, not_or] at hnl
    simp only [findClose] at h
    split at h
    · exact absurd h (by simp)
    · split at h
      · rename_i hp hn
        exact absurd hn.symm hnl.1
      · rename_i hp hn
        have hcs : findClose [a] cs = none := by
          cases hfc : findClose [a] cs with
          | none => rfl
          | some p => rw [hfc] at h; simp at h
        have hac : ¬ a = c := by
          intro hh; subst hh
          exact hp (by simp [List.isPrefixOf])
        simp only [List.mem_cons, not_or]
        exact ⟨hac, ih hnl.2 hcs⟩

theorem findClose_single_content {a : Char} :
    ∀ {s con rest : List Char}, findClose [a] s = some (con, rest) → a ∉ con := by
  intro s
  induction s with
  | nil =>
    intro con rest h
    simp only [findClose] at h
    split at h
    · rename_i hp; simp [List.isPrefixOf] at hp
    · exact absurd h (by simp)
  | cons c cs ih =>
    intro con rest h
    simp only [findClose] at h
    split at h
    · simp only [Option.some.injEq, Prod.mk.injEq] at h
      obtain ⟨h1, _⟩ := h
      subst h1; simp
    · split at h
      · exact absurd h (by simp)
      · rename_i hp hn
        rw [Option.map_eq_some'] at h
        obtain ⟨⟨con', rest'⟩, hfc, heq⟩ := h
        simp only [Prod.mk.injEq] at heq
        obtain ⟨h1, h2⟩ := heq
        subst h1
        have hac : ¬ a = c := by
          intro hh; subst hh
          exact hp (by simp [List.isPrefixOf])
        simp only [List.mem_cons, not_or]
        exact ⟨hac, ih hfc⟩

theorem findClose_append {a : Char} {d₀ : List Char} :
    ∀ {X : List Char} (r : List Char), a ∉ X → '\n' ∉ X →
      findClose (a :: d₀) (X ++ (a :: d₀) ++ r) = some (X, r) := by
  intro X
  induction X with
  | nil =>
    intro r _ _
    have hp := isPrefixOf_append_self (a :: d₀) r
    have hdrop : ((a :: d₀) ++ r).drop (a :: d₀).length = r := List.drop_left _ _
    simp only [List.nil_append, List.cons_append] at hp hdrop ⊢
    simp only [findClose]
    rw [if_pos hp, hdrop]
  | cons x X' ih =>
    intro r hax hnl
    simp only [List.mem_cons, not_or] at hax hnl
    have hax' : (a == x) = false := beq_eq_false_iff_ne.mpr hax.1
    have hxnl : ¬ x = '\n' := fun hh => hnl.1 hh.symm
    have hih := ih r hax.2 hnl.2
    simp only [List.cons_append, List.append_assoc] at hih ⊢
    simp only [findClose]
    rw [if_neg (by simp [List.isPrefixOf, hax']), if_neg hxnl, hih]
    rfl

end Summariser

namespace Summariser

theorem subTagF_cons_match {d op cl : List Char} {f : Nat} {c : Char} {cs con rest : List Char}
    (hp : d.isPrefixOf (c :: cs) = true)
    (hfc : findClose d ((c :: cs).drop d.length) = some (con, rest)) :
    subTagF d op cl (f + 1) (c :: cs) = op ++ con ++ cl ++ subTagF d op cl f rest := by
  simp only [subTagF]
  rw [if_pos hp, hfc]

theorem subTagF_cons_nomatch {d op cl : List Char} {f : Nat} {c : Char} {cs : List Char}
    (hp : d.isPrefixOf (c :: cs) = true)
    (hfc : findClose d ((c :: cs).drop d.length) = none) :
    subTagF d op cl (f + 1) (c :: cs) = c :: subTagF d op cl f cs := by
  simp only [subTagF]
  rw [if_pos hp, hfc]

theorem subTagF_cons_skip {d op cl : List Char} {f : Nat} {c : Char} {cs : List Char}
    (hp : ¬ (d.isPrefixOf (c :: cs) = true)) :
    subTagF d op cl (f + 1) (c :: cs) = c :: subTagF d op cl f cs := by
  simp only [subTagF]
  rw [if_neg hp]

theorem count_star_subTagF_single {op cl : List Char}
    (hop : '*' ∉ op) (hcl : '*' ∉ cl) :
    ∀ (f : Nat) (s : List Char), '\n' ∉ s → s.length ≤ f →
      (subTagF ['*'] op cl f s).count '*' ≤ 1 := by
  intro f
  induction f with
  | zero =>
    intro s _ hlen
    have hs : s = [] := List.length_eq_zero.mp (Nat.le_zero.mp hlen)
    subst hs
    simp [subTagF]
  | succ f ih =>
    intro s hnl hlen
    cases s with
    | nil => simp [subTagF]
    | cons c cs =>
      simp only [List.mem_cons, not_or] at hnl
      have hlen' : cs.length ≤ f := by
        simp only [List.length_cons] at hlen
        omega
      by_cases hc : c = '*'
      · subst hc
        have hp : (['*'] : List Char).isPrefixOf ('*' :: cs) = true := by
          simp [List.isPrefixOf]
        cases hfc : findClose ['*'] cs with
        | some p =>
          obtain ⟨con, rest⟩ := p
          rw [subTagF_cons_match hp (by exact hfc)]
          have hdec := findClose_eq_append hfc
          have hcon : '*' ∉ con := findClose_single_content hfc
          have hnlrest : '\n' ∉ rest := by
            intro hmem
            exact hnl.2 (by rw [hdec]; simp [hmem])
          have hlenrest : rest.length ≤ f := by
            have hl : cs.length = con.length + 1 + rest.length := by
              rw [hdec]
              simp only [List.length_append, List.length_cons, List.length_nil]
            omega
          have hrec := ih rest hnlrest hlenrest
          simp only [List.count_append, List.count_eq_zero.mpr hop,
                     List.count_eq_zero.mpr hcl, List.count_eq_zero.mpr hcon]
          omega
        | none =>
          rw [subTagF_cons_nomatch hp (by exact hfc)]
          have hstar : '*' ∉ cs := not_mem_of_findClose_single_none hnl.2 hfc
          rw [subTagF_of_head_not_mem f hstar]
          simp [List.count_cons, List.count_eq_zero.mpr hstar]
      · have hp : ¬ ((['*'] : List Char).isPrefixOf (c :: cs) = true) := by
          simp only [List.isPrefixOf, Bool.and_true, beq_iff_eq]
          exact fun h => hc h.symm
        rw [subTagF_cons_skip hp]
        have hrec := ih cs hnl.2 hlen'
        have hcb : ('*' == c) = false := beq_eq_false_iff_ne.mpr (fun h => hc h.symm)
        have hcb2 : (c == '*') = false := beq_eq_false_iff_ne.mpr hc
        simp [List.count_cons, hcb, hcb2]
        omega

theorem subTagF_bold_id_of_le_one {op cl : List Char} :
    ∀ (f : Nat) {s : List Char}, s.count '*' ≤ 1 → subTagF ['*', '*'] op cl f s = s := by
  intro f
  induction f with
  | zero => intro s _; rfl
  | succ f ih =>
    intro s hs
    cases s with
    | nil => rfl
    | cons c cs =>
      have hp : ¬ ((['*', '*'] : List Char).isPrefixOf (c :: cs) = true) := by
        intro hp
        cases cs with
        | nil => simp [List.isPrefixOf] at hp
        | cons c2 cs2 =>
          simp only [List.isPrefixOf, Bool.and_eq_true, beq_iff_eq] at hp
          obtain ⟨h1, h2, _⟩ := hp
          rw [← h1, ← h2] at hs
          simp [List.count_cons] at hs
      rw [subTagF_cons_skip hp]
      congr 1
      apply ih
      have h2 : cs.count '*' ≤ (c :: cs).count '*' := by
        rw [List.count_cons]; exact Nat.le_add_right _ _
      omega

theorem subTagF_star_id_of_le_one {op cl : List Char} :
    ∀ (f : Nat) {s : List Char}, s.count '*' ≤ 1 → subTagF ['*'] op cl f s = s := by
  intro f
  induction f with
  | zero => intro s _; rfl
  | succ f ih =>
    intro s hs
    cases s with
    | nil => rfl
    | cons c cs =>
      by_cases hc : c = '*'
      · subst hc
        have hcs : cs.count '*' = 0 := by
          simp [List.count_cons] at hs
          omega
        have hstar : '*' ∉ cs := List.count_eq_zero.mp hcs
        have hp : (['*'] : List Char).isPrefixOf ('*' :: cs) = true := by
          simp [List.isPrefixOf]
        have hfc : findClose ['*'] (('*' :: cs).drop (['*'] : List Char).length) = none :=
          findClose_none_of_not_mem hstar
        rw [subTagF_cons_nomatch hp hfc]
        congr 1
        exact subTagF_of_head_not_mem f hstar
      · have hp : ¬ ((['*'] : List Char).isPrefixOf (c :: cs) = true) := by
          simp only [List.isPrefixOf, Bool.and_true, beq_iff_eq]
          exact fun h => hc h.symm
        rw [subTagF_cons_skip hp]
        congr 1
        apply ih
        have h2 : cs.count '*' ≤ (c :: cs).count '*' := by
          rw [List.count_cons]; exact Nat.le_add_right _ _
        omega

end Summariser

namespace Summariser

/-! ### Rule-level lemmas -/

theorem rule1_id_of_no_star {s : List Char} (h : '*' ∉ s) : rule1 s = s := by
  simp only [rule1, dBold]
  exact subTagF_of_head_not_mem _ h

theorem rule2_id_of_no_star {s : List Char} (h : '*' ∉ s) : rule2 s = s := by
  simp only [rule2, dStar]
  exact subTagF_of_head_not_mem _ h

theorem rule3_id_of_no_nl {s : List Char} (h : '\n' ∉ s) : rule3 s = s :=
  replChar_of_not_mem h

theorem rule4_id_of_no_bull {s : List Char} (h : '•' ∉ s) : rule4 s = s :=
  replChar_of_not_mem h

theorem rule1_id_of_count_le_one {s : List Char} (h : s.count '*' ≤ 1) : rule1 s = s := by
  simp only [rule1, dBold]
  exact subTagF_bold_id_of_le_one _ h

theorem rule2_id_of_count_le_one {s : List Char} (h : s.count '*' ≤ 1) : rule2 s = s := by
  simp only [rule2, dStar]
  exact subTagF_star_id_of_le_one _ h

theorem count_nl_rule1 (s : List Char) : (rule1 s).count '\n' = s.count '\n' := by
  simp only [rule1]
  exact count_subTagF_eq (by decide) (by decide) (by decide) _ s

theorem count_nl_rule2 (s : List Char) : (rule2 s).count '\n' = s.count '\n' := by
  simp only [rule2]
  exact count_subTagF_eq (by decide) (by decide) (by decide) _ s

theorem count_bull_rule1 (s : List Char) : (rule1 s).count '•' = s.count '•' := by
  simp only [rule1]
  exact count_subTagF_eq (by decide) (by decide) (by decide) _ s

theorem count_bull_rule2 (s : List Char) : (rule2 s).count '•' = s.count '•' := by
  simp only [rule2]
  exact count_subTagF_eq (by decide) (by decide) (by decide) _ s

theorem count_bull_rule3 (s : List Char) : (rule3 s).count '•' = s.count '•' :=
  count_replChar_of_ne (by decide) (by decide) s

theorem count_star_rule1_le (s : List Char) : (rule1 s).count '*' ≤ s.count '*' := by
  simp only [rule1]
  exact count_subTagF_le (by decide) (by decide) _ s

theorem count_star_rule2_le_one {s : List Char} (h : '\n' ∉ s) :
    (rule2 s).count '*' ≤ 1 := by
  simp only [rule2, dStar]
  exact count_star_subTagF_single (by decide) (by decide) _ s h (Nat.le_refl _)

theorem count_star_rule4 (s : List Char) : (rule4 s).count '*' = s.count '*' :=
  count_replChar_of_ne (by decide) (by decide) s

theorem not_mem_nl_rule1 {s : List Char} (h : '\n' ∉ s) : '\n' ∉ rule1 s := by
  rw [← List.count_eq_zero] at h ⊢
  rw [count_nl_rule1, h]

theorem not_mem_nl_rule2 {s : List Char} (h : '\n' ∉ s) : '\n' ∉ rule2 s := by
  rw [← List.count_eq_zero] at h ⊢
  rw [count_nl_rule2, h]

theorem not_mem_nl_rule4 {s : List Char} (h : '\n' ∉ s) : '\n' ∉ rule4 s :=
  not_mem_replChar h (by decide)

theorem not_mem_bull_rule4 (s : List Char) : '•' ∉ rule4 s :=
  not_mem_replChar_self (by decide) s

/-- Core of the idempotence analysis: on an input without newlines, one
full pass of the converter leaves a string with at most one asterisk, no
newline and no bullet, on which a second pass has nothing to rewrite. -/
theorem convertL_idem_of_no_nl {s : List Char} (h : '\n' ∉ s) :
    convertL (convertL s) = convertL s := by
  have hnl1 : '\n' ∉ rule1 s := not_mem_nl_rule1 h
  have hnl2 : '\n' ∉ rule2 (rule1 s) := not_mem_nl_rule2 hnl1
  have hstar2 : (rule2 (rule1 s)).count '*' ≤ 1 := count_star_rule2_le_one hnl1
  have h3 : rule3 (rule2 (rule1 s)) = rule2 (rule1 s) := rule3_id_of_no_nl hnl2
  have hcs : convertL s = rule4 (rule2 (rule1 s)) := by
    unfold convertL
    rw [h3]
  have hstar4 : (rule4 (rule2 (rule1 s))).count '*' ≤ 1 := by
    rw [count_star_rule4]
    exact hstar2
  have hnl4 : '\n' ∉ rule4 (rule2 (rule1 s)) := not_mem_nl_rule4 hnl2
  have hbull4 : '•' ∉ rule4 (rule2 (rule1 s)) := not_mem_bull_rule4 _
  rw [hcs]
  show rule4 (rule3 (rule2 (rule1 (rule4 (rule2 (rule1 s)))))) = _
  rw [rule1_id_of_count_le_one hstar4, rule2_id_of_count_le_one hstar4,
      rule3_id_of_no_nl hnl4, rule4_id_of_no_bull hbull4]

end Summariser

namespace Summariser

/-- C4: `convert_markdown_to_html` applies exactly the four transformation
rules in the fixed order bold, italic, line break, bullet; and later rules
never re-match text inserted by earlier rules: the bold pass never adds an
asterisk for the italic pass to match, the first two passes preserve the
number of newline characters (so every line-break tag of rule 3 comes from
an input newline), and the first three passes preserve the number of bullet
glyphs (so every bullet entity of rule 4 comes from an input bullet). -/
theorem claim_C4 (text : String) :
    convert_markdown_to_html text = String.mk (rule4 (rule3 (rule2 (rule1 text.data)))) ∧
    (rule1 text.data).count '*' ≤ text.data.count '*' ∧
    (rule2 (rule1 text.data)).count '\n' = text.data.count '\n' ∧
    (rule3 (rule2 (rule1 text.data))).count '•' = text.data.count '•' := by
  refine ⟨rfl, count_star_rule1_le _, ?_, ?_⟩
  · rw [count_nl_rule2, count_nl_rule1]
  · rw [count_bull_rule3, count_bull_rule2, count_bull_rule1]

/-- C5: `convert_markdown_to_html` is total — it returns a single string on
every input, including the empty string and strings with malformed or
unbalanced emphasis markers (shown on concrete malformed inputs). -/
theorem claim_C5 :
    (∀ text : String, ∃ r : String, convert_markdown_to_html text = r) ∧
    convert_markdown_to_html "" = "" ∧
    convert_markdown_to_html "*" = "*" ∧
    convert_markdown_to_html "**" = "<i></i>" ∧
    convert_markdown_to_html "***x***" = "<b><i>x</b></i>" ∧
    convert_markdown_to_html "**a*b**c*" = "<b>a<i>b</b>c</i>" :=
  ⟨fun _ => ⟨_, rfl⟩, by decide, by decide, by decide, by decide, by decide⟩

/-- C8: on any input with no asterisk, no newline and no bullet glyph,
`convert_markdown_to_html` is the identity. -/
theorem claim_C8 (text : String)
    (h : ∀ c ∈ text.data, c ≠ '*' ∧ c ≠ '\n' ∧ c ≠ '•') :
    convert_markdown_to_html text = text := by
  have hstar : '*' ∉ text.data := fun hm => (h _ hm).1 rfl
  have hnl : '\n' ∉ text.data := fun hm => (h _ hm).2.1 rfl
  have hbull : '•' ∉ text.data := fun hm => (h _ hm).2.2 rfl
  show String.mk (convertL text.data) = text
  have hid : convertL text.data = text.data := by
    unfold convertL
    rw [rule1_id_of_no_star hstar, rule2_id_of_no_star hstar,
        rule3_id_of_no_nl hnl, rule4_id_of_no_bull hbull]
  rw [hid]

theorem claim_C8_witness :
    (∀ c ∈ ("Hello world." : String).data, c ≠ '*' ∧ c ≠ '\n' ∧ c ≠ '•') ∧
    convert_markdown_to_html "Hello world." = "Hello world." :=
  ⟨by decide, claim_C8 "Hello world." (by decide)⟩

/-- C9 counterexample: `convert_markdown_to_html` is not idempotent.  On
the input star-a-newline-b-star the first pass leaves the two asterisks
unpaired (the lazy dot of the italic pattern cannot cross the newline) but
replaces the newline by a line-break tag, so the second pass finds a
matchable italic span and rewrites it. -/
theorem claim_C9_counterexample :
    convert_markdown_to_html (convert_markdown_to_html "*a\nb*") ≠
      convert_markdown_to_html "*a\nb*" := by decide

/-- C9 (amended): `convert_markdown_to_html` is idempotent on every input
without newline characters — one pass then leaves at most one unpaired
asterisk and no newline or bullet glyph, so a second pass finds nothing to
rewrite. -/
theorem claim_C9 (text : String) (h : '\n' ∉ text.data) :
    convert_markdown_to_html (convert_markdown_to_html text) =
      convert_markdown_to_html text :=
  congrArg String.mk (convertL_idem_of_no_nl h)

theorem claim_C9_witness :
    ('\n' ∉ ("*a*" : String).data) ∧
    convert_markdown_to_html (convert_markdown_to_html "*a*") =
      convert_markdown_to_html "*a*" :=
  ⟨by decide, claim_C9 "*a*" (by decide)⟩

end Summariser

namespace Summariser

theorem hasSub_self (p : List Char) : hasSub p p = true := by
  cases p with
  | nil => rfl
  | cons c cs =>
    have hp := isPrefixOf_append_self (c :: cs) []
    rw [List.append_nil] at hp
    simp [hasSub, hp]

theorem hasSub_head_not_mem {a : Char} {p : List Char} :
    ∀ {s : List Char}, a ∉ s → hasSub (a :: p) s = false := by
  intro s
  induction s with
  | nil => intro _; rfl
  | cons c cs ih =>
    intro h
    simp only [List.mem_cons, not_or] at h
    have hac : (a == c) = false := beq_eq_false_iff_ne.mpr h.1
    simp [hasSub, List.isPrefixOf, hac, ih h.2]

/-- The bold pass on a string of the exact shape double-star, clean
content, double-star: the whole input is one match. -/
theorem rule1_wrap {X : List Char} (hstar : '*' ∉ X) (hnl : '\n' ∉ X) :
    rule1 ('*' :: '*' :: (X ++ ['*', '*'])) = "<b>".data ++ X ++ "</b>".data := by
  have hp : (dBold).isPrefixOf ('*' :: '*' :: (X ++ ['*', '*'])) = true := by
    simp [dBold, List.isPrefixOf]
  have hfc : findClose dBold (('*' :: '*' :: (X ++ ['*', '*'])).drop dBold.length)
      = some (X, []) := by
    show findClose ('*' :: ['*']) (X ++ ['*', '*']) = some (X, [])
    have hthis := @findClose_append '*' ['*'] X ([] : List Char) hstar hnl
    simpa using hthis
  have hlen : ('*' :: '*' :: (X ++ ['*', '*'])).length = (X.length + 3) + 1 := by
    simp [List.length_append]
  show subTagF dBold "<b>".data "</b>".data ('*' :: '*' :: (X ++ ['*', '*'])).length
      ('*' :: '*' :: (X ++ ['*', '*'])) = _
  rw [hlen, subTagF_cons_match hp hfc, subTagF_nil, List.append_nil]

/-- Full converter on a clean bold span: it produces exactly the
bold-wrapped content. -/
theorem convert_bold_wrap (X : String)
    (h : ∀ c ∈ X.data, c ≠ '*' ∧ c ≠ '\n' ∧ c ≠ '•') :
    convert_markdown_to_html ("**" ++ X ++ "**") = "<b>" ++ X ++ "</b>" := by
  have hstar : '*' ∉ X.data := fun hm => (h _ hm).1 rfl
  have hnl : '\n' ∉ X.data := fun hm => (h _ hm).2.1 rfl
  have hbull : '•' ∉ X.data := fun hm => (h _ hm).2.2 rfl
  have hdata : ("**" ++ X ++ "**").data = '*' :: '*' :: (X.data ++ ['*', '*']) := by
    rw [String.data_append, String.data_append]
    rfl
  have hout : ("<b>" ++ X ++ "</b>").data = "<b>".data ++ X.data ++ "</b>".data := by
    rw [String.data_append, String.data_append]
  have hmem : ∀ a : Char, a ∉ X.data → a ∉ "<b>".data → a ∉ "</b>".data →
      a ∉ ("<b>".data ++ X.data ++ "</b>".data) := by
    intro a h1 h2 h3
    simp only [List.append_assoc, List.mem_append, not_or]
    exact ⟨h2, h1, h3⟩
  show String.mk (convertL ("**" ++ X ++ "**").data) = _
  rw [hdata]
  have hid : convertL ('*' :: '*' :: (X.data ++ ['*', '*'])) =
      "<b>".data ++ X.data ++ "</b>".data := by
    unfold convertL
    rw [rule1_wrap hstar hnl,
        rule2_id_of_no_star (hmem '*' hstar (by decide) (by decide)),
        rule3_id_of_no_nl (hmem '\n' hnl (by decide) (by decide)),
        rule4_id_of_no_bull (hmem '•' hbull (by decide) (by decide))]
  rw [hid, ← hout]

/-- C7 (amended): for every X containing no asterisk, no newline and no
bullet glyph, the converter turns the double-starred X into text that
contains the bold wrapping of X and contains no literal double asterisk.
(For X containing a newline the bold pattern cannot match, and for X
containing a bullet the wrapped content is rewritten, see the
counterexample.) -/
theorem claim_C7 (X : String)
    (h : ∀ c ∈ X.data, c ≠ '*' ∧ c ≠ '\n' ∧ c ≠ '•') :
    hasSub ("<b>" ++ X ++ "</b>").data
      (convert_markdown_to_html ("**" ++ X ++ "**")).data = true ∧
    hasSub "**".data (convert_markdown_to_html ("**" ++ X ++ "**")).data = false := by
  have hstar : '*' ∉ X.data := fun hm => (h _ hm).1 rfl
  rw [convert_bold_wrap X h]
  refine ⟨hasSub_self _, ?_⟩
  have hns : '*' ∉ ("<b>" ++ X ++ "</b>").data := by
    rw [String.data_append, String.data_append]
    simp only [List.mem_append, not_or]
    exact ⟨⟨by decide, hstar⟩, by decide⟩
  exact hasSub_head_not_mem hns

theorem claim_C7_witness :
    (∀ c ∈ ("Hi" : String).data, c ≠ '*' ∧ c ≠ '\n' ∧ c ≠ '•') ∧
    (hasSub ("<b>" ++ "Hi" ++ "</b>").data
       (convert_markdown_to_html ("**" ++ "Hi" ++ "**")).data = true ∧
     hasSub "**".data (convert_markdown_to_html ("**" ++ "Hi" ++ "**")).data = false) :=
  ⟨by decide, claim_C7 "Hi" (by decide)⟩

/-- C7 counterexample: the claim fails for X containing a newline (the
bold regex dot cannot cross a newline, so no bold wrapping is produced)
and for X containing a bullet glyph (the bullet inside the wrapping is
rewritten to the entity, so the output does not contain the bold wrapping
of X itself). -/
theorem claim_C7_counterexample :
    ('*' ∉ ("\n" : String).data) ∧
    hasSub ("<b>" ++ "\n" ++ "</b>").data
      (convert_markdown_to_html ("**" ++ "\n" ++ "**")).data = false ∧
    ('*' ∉ ("•" : String).data) ∧
    hasSub ("<b>" ++ "•" ++ "</b>").data
      (convert_markdown_to_html ("**" ++ "•" ++ "**")).data = false := by decide

end Summariser

namespace Summariser

theorem filter_sublist_replChar {ch : Char} {r : List Char} (hch : keepC ch = false) :
    ∀ s : List Char, (s.filter keepC).Sublist ((replChar ch r s).filter keepC) := by
  intro s
  induction s with
  | nil => simp [replChar]
  | cons x xs ih =>
    by_cases hx : x = ch
    · have hstep : replChar ch r (x :: xs) = r ++ replChar ch r xs := by
        simp [replChar, hx]
      have hxf : keepC x = false := by rw [hx]; exact hch
      rw [hstep, List.filter_append, List.filter_cons, hxf]
      simp only [Bool.false_eq_true, if_false]
      exact ih.trans (List.sublist_append_right _ _)
    · have hstep : replChar ch r (x :: xs) = x :: replChar ch r xs := by
        simp [replChar, hx]
      rw [hstep, List.filter_cons, List.filter_cons]
      cases hxf : keepC x
      · simp only [Bool.false_eq_true, if_false]
        exact ih
      · simp only [if_true]
        exact ih.cons₂ x

theorem filter_sublist_subTagF {d op cl : List Char} (hd : ∀ x ∈ d, keepC x = false) :
    ∀ (f : Nat) (s : List Char),
      (s.filter keepC).Sublist ((subTagF d op cl f s).filter keepC) := by
  intro f
  induction f with
  | zero => intro s; exact List.Sublist.refl _
  | succ f ih =>
    intro s
    cases s with
    | nil => exact List.Sublist.refl _
    | cons c cs =>
      have hcons : ∀ rec : List Char, (cs.filter keepC).Sublist (rec.filter keepC) →
          ((c :: cs).filter keepC).Sublist ((c :: rec).filter keepC) := by
        intro rec hrec
        rw [List.filter_cons, List.filter_cons]
        cases hcf : keepC c
        · simp only [Bool.false_eq_true, if_false]
          exact hrec
        · simp only [if_true]
          exact hrec.cons₂ c
      by_cases hp : d.isPrefixOf (c :: cs) = true
      · cases hfc : findClose d ((c :: cs).drop d.length) with
        | some p =>
          obtain ⟨con, rest⟩ := p
          rw [subTagF_cons_match hp hfc]
          have hs1 := isPrefixOf_eq_append hp
          have hs2 := findClose_eq_append hfc
          have hfd : d.filter keepC = [] := by
            rw [List.filter_eq_nil_iff]
            intro a ha
            simp [hd a ha]
          conv_lhs => rw [hs1, hs2]
          simp only [List.filter_append, hfd, List.nil_append, List.append_nil,
                     List.append_assoc]
          have h1 : (rest.filter keepC).Sublist
              ((cl.filter keepC) ++ ((subTagF d op cl f rest).filter keepC)) :=
            (ih rest).trans (List.sublist_append_right _ _)
          have h2 : ((con.filter keepC) ++ (rest.filter keepC)).Sublist
              ((con.filter keepC) ++ ((cl.filter keepC) ++
                ((subTagF d op cl f rest).filter keepC))) :=
            h1.append_left _
          exact h2.trans (List.sublist_append_right _ _)
        | none =>
          rw [subTagF_cons_nomatch hp hfc]
          exact hcons _ (ih cs)
      · rw [subTagF_cons_skip hp]
        exact hcons _ (ih cs)

/-- C10: the converter only ever rewrites asterisks, newlines and bullet
glyphs — every other character of the input (including the
markup-significant characters) survives into the output verbatim,
unescaped, and in its original relative order: the input with those three
characters removed is a subsequence of the output. -/
theorem claim_C10 (text : String) :
    (text.data.filter keepC).Sublist (convert_markdown_to_html text).data := by
  have h1 : (text.data.filter keepC).Sublist ((rule1 text.data).filter keepC) := by
    simp only [rule1]
    exact filter_sublist_subTagF (by decide) _ _
  have h2 : ((rule1 text.data).filter keepC).Sublist
      ((rule2 (rule1 text.data)).filter keepC) := by
    simp only [rule2]
    exact filter_sublist_subTagF (by decide) _ _
  have h3 : ((rule2 (rule1 text.data)).filter keepC).Sublist
      ((rule3 (rule2 (rule1 text.data))).filter keepC) :=
    filter_sublist_replChar (by decide) _
  have h4 : ((rule3 (rule2 (rule1 text.data))).filter keepC).Sublist
      ((rule4 (rule3 (rule2 (rule1 text.data)))).filter keepC) :=
    filter_sublist_replChar (by decide) _
  exact (((h1.trans h2).trans h3).trans h4).trans (List.filter_sublist _)

end Summariser

namespace Summariser

/-- C6: when ReportLab (the document-composition capability) is absent,
the renderer raises the unavailability error before composing anything,
and the file system is left unchanged — no partial file is created. -/
theorem claim_C6 (text : String) (clock : Nat → Timestamp)
    (fs : List (String × List Block)) :
    save_summary_as_pdf false clock text fs =
      (Except.error "ReportLab is not installed. Install dependencies to export PDF.", fs) :=
  rfl

/-- C3: the word count written into the rendered footer equals the length
of the Python whitespace split of the raw, pre-conversion summary text;
and the split of the example string with a double space and a newline has
length 3. -/
theorem claim_C3 (text : String) (clock : Nat → Timestamp) :
    (save_summary_as_pdf true clock text []).2 =
      [(mkFilename (clock 0), docContent text (clock 1))] ∧
    (docContent text (clock 1)).getLast? =
      some (Block.paragraph (footer_text (clock 1) (pySplit text.data).length) footer_style) ∧
    (pySplit ("Hello   world\nfoo" : String).data).length = 3 :=
  ⟨rfl, rfl, by decide⟩

/-- C2 counterexample: the raw scenario text splits into 9
whitespace-delimited tokens (including Revenue and up), not 7, so the
rendered footer carries word count 9 and differs from a footer with word
count 7. -/
theorem claim_C2_counterexample :
    (pySplit ("**Key Point**: growth *accelerated* in Q2.\n• Revenue up" : String).data).length
      = 9 ∧
    (docContent "**Key Point**: growth *accelerated* in Q2.\n• Revenue up"
        ⟨2025, 1, 1, 10, 30, 0⟩).getLast? =
      some (Block.paragraph (footer_text ⟨2025, 1, 1, 10, 30, 0⟩ 9) footer_style) ∧
    Block.paragraph (footer_text ⟨2025, 1, 1, 10, 30, 0⟩ 9) footer_style ≠
      Block.paragraph (footer_text ⟨2025, 1, 1, 10, 30, 0⟩ 7) footer_style := by
  refine ⟨by decide, rfl, by decide⟩

/-- C2 (amended): the scenario render succeeds and produces, at a fixed
clock instant, a document whose card block shows the Key Point span in
bold markup, accelerated in italic markup, an explicit line-break tag
before the bullet entity, and whose footer word count is 9. -/
theorem claim_C2 :
    save_summary_as_pdf true (fun _ => ⟨2025, 1, 1, 10, 30, 0⟩)
        "**Key Point**: growth *accelerated* in Q2.\n• Revenue up" [] =
      (Except.ok "AI_Summary_20250101_103000.pdf",
       [("AI_Summary_20250101_103000.pdf",
         [Block.table [["🧠 AI Text Summarizer", "Gemini 2.5 Pro | AI Generated Summary"]] "header",
          Block.spacer 1 35,
          Block.paragraph "✨ Executive Summary" title_style,
          Block.paragraph "Clean • Concise • Insightful" subtitle_style,
          Block.card "<b>Key Point</b>: growth <i>accelerated</i> in Q2.<br/>&bull; Revenue up"
            body_style,
          Block.spacer 1 40,
          Block.paragraph (footer_text ⟨2025, 1, 1, 10, 30, 0⟩ 9) footer_style])]) := by
  set_option maxHeartbeats 2000000 in decide

/-- C1 counterexample: one render call reads the wall clock twice — on
line 72 for the filename and on line 150 for the footer.  With a clock
whose two reads differ by one minute, the filename encodes the first read
(10:30:00) while the footer shows the second (10:31 AM): the footer
timestamp does not agree with the filename timestamp, refuting the
read-once claim. -/
theorem claim_C1_counterexample :
    (save_summary_as_pdf true
        (fun n => if n = 0 then ⟨2025, 1, 1, 10, 30, 0⟩ else ⟨2025, 1, 1, 10, 31, 0⟩)
        "hi" []) =
      (Except.ok (mkFilename ⟨2025, 1, 1, 10, 30, 0⟩),
       [(mkFilename ⟨2025, 1, 1, 10, 30, 0⟩, docContent "hi" ⟨2025, 1, 1, 10, 31, 0⟩)]) ∧
    mkFilename ⟨2025, 1, 1, 10, 30, 0⟩ = "AI_Summary_20250101_103000.pdf" ∧
    (docContent "hi" ⟨2025, 1, 1, 10, 31, 0⟩).getLast? =
      some (Block.paragraph (footer_text ⟨2025, 1, 1, 10, 31, 0⟩ 1) footer_style) ∧
    footer_text ⟨2025, 1, 1, 10, 31, 0⟩ 1 ≠ footer_text ⟨2025, 1, 1, 10, 30, 0⟩ 1 := by
  refine ⟨rfl, by decide, rfl, by decide⟩

/-- C1 (amended): the renderer reads the wall clock twice, once for the
filename and once for the footer.  When both reads return the same
instant, filename and footer are derived consistently from that instant;
the rendered result is a pure function of the summary text and the two
clock readings; and across distinct instants only the filename and the
footer's timestamp field differ — the first six content blocks and the
footer's word count do not depend on the clock. -/
theorem claim_C1 (text : String) (c c2 : Nat → Timestamp)
    (fs : List (String × List Block)) (d d2 : Timestamp)
    (hsame : c 1 = c 0) (h0 : c2 0 = c 0) (h1 : c2 1 = c 1) :
    save_summary_as_pdf true c text fs =
      (Except.ok (mkFilename (c 0)), (mkFilename (c 0), docContent text (c 0)) :: fs) ∧
    save_summary_as_pdf true c2 text fs = save_summary_as_pdf true c text fs ∧
    (docContent text d).dropLast = (docContent text d2).dropLast ∧
    (docContent text d).getLast? =
      some (Block.paragraph (footer_text d (pySplit text.data).length) footer_style) := by
  refine ⟨?_, ?_, ?_, ?_⟩
  · show (Except.ok (mkFilename (c 0)),
      (mkFilename (c 0), docContent text (c 1)) :: fs) = _
    rw [hsame]
  · show (Except.ok (mkFilename (c2 0)),
      (mkFilename (c2 0), docContent text (c2 1)) :: fs) = _
    rw [h0, h1]
    rfl
  · simp [docContent]
  · simp [docContent]

theorem claim_C1_witness :
    (save_summary_as_pdf true (fun _ => (⟨2025, 1, 1, 10, 30, 0⟩ : Timestamp)) "hi" [] =
      (Except.ok (mkFilename ⟨2025, 1, 1, 10, 30, 0⟩),
       (mkFilename ⟨2025, 1, 1, 10, 30, 0⟩,
        docContent "hi" ⟨2025, 1, 1, 10, 30, 0⟩) :: []) ∧
    save_summary_as_pdf true (fun _ => (⟨2025, 1, 1, 10, 30, 0⟩ : Timestamp)) "hi" [] =
      save_summary_as_pdf true (fun _ => (⟨2025, 1, 1, 10, 30, 0⟩ : Timestamp)) "hi" [] ∧
    (docContent "hi" ⟨2025, 1, 1, 10, 30, 0⟩).dropLast =
      (docContent "hi" ⟨2025, 1, 2, 11, 0, 0⟩).dropLast ∧
    (docContent "hi" ⟨2025, 1, 1, 10, 30, 0⟩).getLast? =
      some (Block.paragraph (footer_text ⟨2025, 1, 1, 10, 30, 0⟩
        (pySplit ("hi" : String).data).length) footer_style)) :=
  claim_C1 "hi" (fun _ => ⟨2025, 1, 1, 10, 30, 0⟩) (fun _ => ⟨2025, 1, 1, 10, 30, 0⟩) []
    ⟨2025, 1, 1, 10, 30, 0⟩ ⟨2025, 1, 2, 11, 0, 0⟩ rfl rfl rfl

end Summariser
